import Mathlib

/-!
Shallow embedding of `creachadair/goflags`, package `sizeflag` (flag.go),
together with theorems checking the natural-language specification of the
package against this embedding.

The package parses human-readable size strings such as "2.3K" or "1.7M0.3K"
into integer unit counts (binary 1024-based or decimal 1000-based tables) and
formats integers back into such strings.

Modelling notes:
* Go strings are modelled as `List Char` (all relevant inputs are ASCII).
* Go `int` is modelled as `ℤ` (no input considered here approaches 2^63,
  so 64-bit wraparound does not matter for any statement below).
* `strconv.ParseFloat` and the float64 multiplication `v *= mul` are modelled
  exactly: an IEEE-754 binary64 value is a pair (mantissa, exponent) with the
  53-bit mantissa obtained by correct round-to-nearest, ties-to-even rounding
  of the exact rational, which is what Go's ParseFloat and float64 multiply
  (with exactly-representable integer multiplier) compute.
* The anchored regexp `^(?i)([0-9]+(?:\.[0-9]+)?)([bkmgtp])` is compiled into
  the deterministic matcher `matchSize` (greedy digit runs; the optional
  fraction group is kept only when followed by a unit letter, mirroring the
  regexp's backtracking).
-/

namespace Sizeflag

/-! ### Unit constants (flag.go `const` block) -/

def kd : ℕ := 1000
def md : ℕ := kd * kd
def gd : ℕ := md * kd
def td : ℕ := gd * kd
def pd : ℕ := td * kd
def ed : ℕ := pd * kd

def ki : ℕ := 1024
def mi : ℕ := ki * ki
def gi : ℕ := mi * ki
def ti : ℕ := gi * ki
def pi : ℕ := ti * ki
def ei : ℕ := pi * ki

/-! ### Character helpers (ASCII model of `strings.TrimSpace`, `[0-9]`,
`strings.ToLower`, and the regexp's `(?i)[bkmgtp]` class) -/

/-- Unicode whitespace as far as ASCII goes: the characters
`strings.TrimSpace` removes at the ends of the inputs considered here. -/
def isSpaceCh (c : Char) : Bool :=
  c = ' ' || c = '\t' || c = '\n' || c = '\r' || c = Char.ofNat 11 || c = Char.ofNat 12

/-- `strings.TrimSpace`: drop whitespace from both ends. -/
def trimSpace (s : List Char) : List Char :=
  ((s.dropWhile isSpaceCh).reverse.dropWhile isSpaceCh).reverse

/-- The regexp class `[0-9]`. -/
def isDigitCh (c : Char) : Bool :=
  48 ≤ c.toNat && c.toNat ≤ 57

/-- `strings.ToLower` restricted to ASCII. -/
def toLowerAscii (c : Char) : Char :=
  if 65 ≤ c.toNat && c.toNat ≤ 90 then Char.ofNat (c.toNat + 32) else c

/-- The regexp class `[bkmgtp]` under the `(?i)` flag.  (Note: the letter
`e` is absent, although the package's documented grammar lists it.) -/
def isUnitCh (c : Char) : Bool :=
  ['b', 'k', 'm', 'g', 't', 'p'].contains (toLowerAscii c)

/-- Decimal digit run to a natural number. -/
def natOfDigits (ds : List Char) : ℕ :=
  ds.foldl (fun a c => a * 10 + (c.toNat - 48)) 0

/-! ### `sizeRE.FindStringSubmatch` on a prefix

`matchSize s` returns `some (d1, d2, u, len)` when the anchored regexp
`^(?i)([0-9]+(?:\.[0-9]+)?)([bkmgtp])` matches a prefix of `s` of length
`len`, with integer digits `d1`, fractional digits `d2` (empty when the
optional group is not taken) and unit character `u`. -/

def matchSize (s : List Char) : Option (List Char × List Char × Char × ℕ) :=
  let d1 := s.takeWhile isDigitCh
  if d1.isEmpty then none else
  let r1 := s.drop d1.length
  let noFrac : Option (List Char × List Char × Char × ℕ) :=
    match r1 with
    | u :: _ => if isUnitCh u then some (d1, [], u, d1.length + 1) else none
    | [] => none
  match r1 with
  | '.' :: r2 =>
      let d2 := r2.takeWhile isDigitCh
      if d2.isEmpty then noFrac
      else
        match r2.drop d2.length with
        | u :: _ =>
            if isUnitCh u then some (d1, d2, u, d1.length + 1 + d2.length + 1)
            else noFrac
        | [] => noFrac
  | _ => noFrac

/-! ### IEEE-754 binary64 arithmetic (exact model)

A positive float is `(n, e)` with value `n * 2^e`; rounding a positive
rational `a / b` to a float takes the 53-bit mantissa nearest to the value,
ties to even.  Inputs in this development stay far from overflow and
subnormal territory, where this is exactly binary64. -/

/-- Fuel-based `⌊log2 n⌋` (fuel `n` always suffices for `n ≥ 1`). -/
def lg : ℕ → ℕ → ℕ
  | 0, _ => 0
  | f + 1, n => if 2 ≤ n then lg f (n / 2) + 1 else 0

/-- `⌊log2 (a / b)⌋` for `a, b ≥ 1`. -/
def floorLog2Q (a b : ℕ) : ℤ :=
  if b ≤ a then ((lg (a / b) (a / b) : ℕ) : ℤ)
  else
    let j := lg (b / a) (b / a)
    if a * 2 ^ j = b then -(j : ℤ) else -(j : ℤ) - 1

/-- Round the rational `a / b` (`b ≥ 1`) to the nearest binary64 value,
ties to even; result `(n, e)` denotes `n * 2^e` with `2^52 ≤ n ≤ 2^53`. -/
def roundFl (a b : ℕ) : ℕ × ℤ :=
  if a = 0 then (0, 0) else
  let k := floorLog2Q a b
  let s : ℤ := 52 - k
  let num := if 0 ≤ s then a * 2 ^ s.toNat else a
  let den := if 0 ≤ s then b else b * 2 ^ (-s).toNat
  let n0 := num / den
  let r := num % den
  let n :=
    if 2 * r < den then n0
    else if den < 2 * r then n0 + 1
    else if n0 % 2 = 0 then n0 else n0 + 1
  (n, k - 52)

/-- `strconv.ParseFloat` on a match `d1 [. d2]`: correctly rounded
conversion of the decimal value to binary64. -/
def parseFloatDec (d1 d2 : List Char) : ℕ × ℤ :=
  roundFl (natOfDigits (d1 ++ d2)) (10 ^ d2.length)

/-- `v *= mul`: float64 multiplication by an exactly-representable integer
multiplier (every table multiplier is exactly representable). -/
def mulFl (x : ℕ × ℤ) (mul : ℕ) : ℕ × ℤ :=
  if 0 ≤ x.2 then roundFl (x.1 * mul * 2 ^ x.2.toNat) 1
  else roundFl (x.1 * mul) (2 ^ (-x.2).toNat)

/-- `int(v)`: Go float-to-int conversion truncates toward zero; the values
reaching it here are non-negative. -/
def truncFl (x : ℕ × ℤ) : ℕ :=
  if 0 ≤ x.2 then x.1 * 2 ^ x.2.toNat else x.1 / 2 ^ (-x.2).toNat

/-- The integer contribution of one matched term: `int(ParseFloat(m[1]) * mul)`. -/
def termValue (d1 d2 : List Char) (mul : ℕ) : ℕ :=
  truncFl (mulFl (parseFloatDec d1 d2) mul)

/-! ### Unit tables (`units2`, `units10`), keyed by the lower-cased unit letter -/

def units2 : Char → Option ℕ := fun c =>
  if c = 'k' then some ki else if c = 'm' then some mi
  else if c = 'g' then some gi else if c = 't' then some ti
  else if c = 'p' then some pi else if c = 'e' then some ei else none

def units10 : Char → Option ℕ := fun c =>
  if c = 'k' then some kd else if c = 'm' then some md
  else if c = 'g' then some gd else if c = 't' then some td
  else if c = 'p' then some pd else if c = 'e' then some ed else none

/-! ### The parser (`parse` in flag.go) -/

/-- The two error conditions `parse` reports: `fmt.Errorf("sizeflag: invalid
size %q", ...)` and `fmt.Errorf("sizeflag: invalid unit %q", ...)`. -/
inductive PErr : Type
  | invalidSize : PErr
  | invalidUnit : PErr
deriving DecidableEq, Repr

/-- `strconv.Atoi`: optional single sign, then a non-empty digit run and
nothing else.  (The int64 range check is irrelevant at the magnitudes
considered here and is not modelled.) -/
def atoi (s : List Char) : Option ℤ :=
  match s with
  | [] => none
  | c :: rest =>
    let neg := c = '-'
    let ds := if c = '-' || c = '+' then rest else s
    if ds.isEmpty || !ds.all isDigitCh then none
    else some (if neg then -(natOfDigits ds : ℤ) else (natOfDigits ds : ℤ))

/-- The `for {}` loop of `parse`, fuelled: every iteration consumes at least
two characters, so fuel `s.length + 1` can never run out.  State: remaining
text, running total `size`, and the `ok` flag recording whether any term
matched.  On loop exit (no regexp match) the residual handling of flag.go
lines 193–201 runs. -/
def parseLoop (unit : Char → Option ℕ) : ℕ → List Char → ℤ → Bool → ℤ × Option PErr
  | 0, _, size, _ => (size, some .invalidSize)
  | fuel + 1, s, size, ok =>
    let t := trimSpace s
    match matchSize t with
    | some (d1, d2, u, len) =>
        match unit (toLowerAscii u) with
        | some mul => parseLoop unit fuel (t.drop len) (size + (termValue d1 d2 mul : ℤ)) true
        | none => (size, some .invalidUnit)
    | none =>
        if t.isEmpty then
          if ok then (size, none) else (0, some .invalidSize)
        else
          match atoi t with
          | some v => (size + v, none)
          | none => (0, some .invalidSize)

/-- `parse(s, unit)`: returns the parsed total together with an optional
error, exactly as the Go function returns `(int, error)`. -/
def parse (s : String) (unit : Char → Option ℕ) : ℤ × Option PErr :=
  parseLoop unit (s.length + 1) s.data 0 false

/-! ### Flag cells (`Value2.Set`, `Value10.Set`) -/

/-- `(*Value2).Set`: on success store the parsed value, on failure leave the
cell unchanged; always propagate the error.  Result: (new cell, error). -/
def set2 (v : ℤ) (s : String) : ℤ × Option PErr :=
  match parse s units2 with
  | (z, none) => (z, none)
  | (_, some e) => (v, some e)

/-- `(*Value10).Set`, identically with the decimal table. -/
def set10 (v : ℤ) (s : String) : ℤ × Option PErr :=
  match parse s units10 with
  | (z, none) => (z, none)
  | (_, some e) => (v, some e)

/-! ### The formatter (`unparse` in flag.go)

The Go code appends terms to the end of a slice and mutates its last
element when the carry-combination applies; the embedding keeps the term
list in reverse (most recent first), so appending is cons and the mutated
last element is the head.  `fullTerms` is reversed before rendering, so the
rendered string is identical. -/

/-- `labels`, descending order; `labels[0]` is a sentinel. -/
def labels : List String := ["", "E", "P", "T", "G", "M", "K"]

/-- `mult2`, descending order. -/
def mult2 : List ℕ := [ei, pi, ti, gi, mi, ki]

/-- `mult10`, descending order. -/
def mult10 : List ℕ := [ed, pd, td, gd, md, kd]

/-- The local closure `add` of `unparse`: if the remaining value `v` is zero
and the previous term is labelled one place higher (`prev`), lower that term
by one place and fold the new coefficient in; otherwise append a new term.
Term list is in reverse order (most recent first). -/
def addTerm (pow : ℕ) (n : ℕ) (u prev : String) (v : ℕ) :
    List (ℕ × String) → List (ℕ × String)
  | [] => [(n, u)]
  | t :: rest =>
      if v = 0 ∧ t.2 = prev then (t.1 * pow + n, u) :: rest
      else (n, u) :: t :: rest

/-- The `for i, div := range mult` loop of `unparse`, carrying the index,
the remaining value `z`, and the (reversed) term list. -/
def unparseLoop (pow : ℕ) : List ℕ → ℕ → ℕ → List (ℕ × String) →
    List (ℕ × String) × ℕ
  | [], _, z, terms => (terms, z)
  | div :: rest, i, z, terms =>
      if 0 < z / div then
        unparseLoop pow rest (i + 1) (z % div)
          (addTerm pow (z / div) (labels.getD (i + 1) "") (labels.getD i "") (z % div) terms)
      else unparseLoop pow rest (i + 1) z terms

/-- The complete (reversed) term list `unparse` renders: the divisor loop
followed by the final `add(z, "", "K", 0)` when no term was produced or a
nonzero remainder is left. -/
def fullTerms (v pow : ℕ) (mult : List ℕ) : List (ℕ × String) :=
  if (unparseLoop pow mult 0 v []).1 = [] ∨ 0 < (unparseLoop pow mult 0 v []).2 then
    addTerm pow (unparseLoop pow mult 0 v []).2 "" "K" 0 (unparseLoop pow mult 0 v []).1
  else (unparseLoop pow mult 0 v []).1

/-- `fmt.Sprintf("%d%s", t.n, t.u)`. -/
def renderTerm (t : ℕ × String) : String := toString t.1 ++ t.2

/-- `unparse(v, pow, mult)` for non-negative `v`: render the terms and join
them with single spaces. -/
def unparse (v pow : ℕ) (mult : List ℕ) : String :=
  String.intercalate " " (((fullTerms v pow mult).reverse).map renderTerm)

/-! ### Specification-side notions for the formatter's output shape -/

/-- Magnitude rank of a term label: `"E"` is the largest unit (rank 1),
`"K"` the smallest (rank 6), and the empty "whole units" label ranks below
every unit (rank 7).  Strictly descending magnitude = strictly increasing
rank. -/
def rank (s : String) : ℕ :=
  if s = "E" then 1 else if s = "P" then 2 else if s = "T" then 3
  else if s = "G" then 4 else if s = "M" then 5 else if s = "K" then 6 else 7

/-- Invariant of the (reversed) term list while the divisor loop has
consumed the table entries up to index `i`: ranks strictly decrease toward
the head (the head is the most recent, lowest-magnitude term), all
coefficients are positive, and every rank is at most `i`. -/
def InvTerms (i : ℕ) (terms : List (ℕ × String)) : Prop :=
  List.Pairwise (fun a b => rank b.2 < rank a.2) terms ∧
  (∀ t ∈ terms, 0 < t.1) ∧
  (∀ t ∈ terms, rank t.2 ≤ i)

end Sizeflag

namespace Sizeflag

/-! ### Helper lemmas -/

theorem set2_snd (v : ℤ) (s : String) : (set2 v s).2 = (parse s units2).2 := by
  unfold set2
  rcases h : parse s units2 with ⟨z, e⟩
  cases e <;> rfl

theorem set10_snd (v : ℤ) (s : String) : (set10 v s).2 = (parse s units10).2 := by
  unfold set10
  rcases h : parse s units10 with ⟨z, e⟩
  cases e <;> rfl

theorem rank_labels_getD {j : ℕ} (h1 : 1 ≤ j) (h2 : j ≤ 6) :
    rank (labels.getD j "") = j := by
  interval_cases j <;> decide

theorem invTerms_mono {i j : ℕ} {terms : List (ℕ × String)} (hij : i ≤ j)
    (h : InvTerms i terms) : InvTerms j terms :=
  ⟨h.1, h.2.1, fun t ht => le_trans (h.2.2 t ht) hij⟩

theorem addTerm_ne_nil (pow n : ℕ) (u prev : String) (v : ℕ)
    (terms : List (ℕ × String)) : addTerm pow n u prev v terms ≠ [] := by
  cases terms with
  | nil => simp [addTerm]
  | cons t rest =>
      simp only [addTerm]
      split <;> simp

theorem invTerms_addTerm {pow i n v : ℕ} {terms : List (ℕ × String)}
    (hn : 0 < n) (hi : i + 1 ≤ 6) (h : InvTerms i terms) :
    InvTerms (i + 1)
      (addTerm pow n (labels.getD (i + 1) "") (labels.getD i "") v terms) := by
  obtain ⟨hpw, hpos, hrk⟩ := h
  have hu : rank (labels.getD (i + 1) "") = i + 1 :=
    rank_labels_getD (Nat.succ_le_succ (Nat.zero_le i)) hi
  cases terms with
  | nil =>
      refine ⟨by simp [addTerm], ?_, ?_⟩
      · simpa [addTerm] using hn
      · intro x hx
        simp only [addTerm, List.mem_singleton] at hx
        rw [hx]
        exact le_of_eq hu
  | cons t rest =>
      have hpwrest := (List.pairwise_cons.mp hpw).2
      simp only [addTerm]
      split
      · -- carry-combination: fold into the previous (head) term
        refine ⟨List.pairwise_cons.mpr ⟨fun b hb => ?_, hpwrest⟩, ?_, ?_⟩
        · have hb' := hrk b (List.mem_cons_of_mem _ hb)
          simp only [hu]
          omega
        · intro x hx
          rcases List.mem_cons.mp hx with hx | hx
          · rw [hx]
            exact Nat.lt_of_lt_of_le hn (Nat.le_add_left n _)
          · exact hpos x (List.mem_cons_of_mem _ hx)
        · intro x hx
          rcases List.mem_cons.mp hx with hx | hx
          · rw [hx]; simpa using le_of_eq hu
          · exact le_trans (hrk x (List.mem_cons_of_mem _ hx)) (Nat.le_succ i)
      · -- append a fresh term in front
        refine ⟨List.pairwise_cons.mpr ⟨fun b hb => ?_, hpw⟩, ?_, ?_⟩
        · have hb' := hrk b hb
          simp only [hu]
          omega
        · intro x hx
          rcases List.mem_cons.mp hx with hx | hx
          · rw [hx]; exact hn
          · exact hpos x hx
        · intro x hx
          rcases List.mem_cons.mp hx with hx | hx
          · rw [hx]; simpa using le_of_eq hu
          · exact le_trans (hrk x hx) (Nat.le_succ i)

theorem unparseLoop_invariant (pow : ℕ) :
    ∀ (mult : List ℕ) (i z : ℕ) (terms : List (ℕ × String)),
      i + mult.length ≤ 6 → InvTerms i terms →
      InvTerms 6 (unparseLoop pow mult i z terms).1 ∧
      ((unparseLoop pow mult i z terms).1 = [] →
        terms = [] ∧ (unparseLoop pow mult i z terms).2 = z) := by
  intro mult
  induction mult with
  | nil =>
      intro i z terms hlen h
      simp only [unparseLoop]
      exact ⟨invTerms_mono (by simpa using hlen) h, fun he => ⟨he, by simp⟩⟩
  | cons div rest ih =>
      intro i z terms hlen h
      have hlen' : i + 1 + rest.length ≤ 6 := by
        simp only [List.length_cons] at hlen
        omega
      simp only [unparseLoop]
      by_cases hpos : 0 < z / div
      · rw [if_pos hpos]
        have hstep := @invTerms_addTerm pow i (z / div) (z % div) terms hpos
          (by omega) h
        have hres := ih (i + 1) (z % div) _ hlen' hstep
        exact ⟨hres.1, fun he =>
          absurd (hres.2 he).1 (addTerm_ne_nil pow (z / div) _ _ (z % div) terms)⟩
      · rw [if_neg hpos]
        exact ih (i + 1) z terms hlen' (invTerms_mono (Nat.le_succ i) h)

theorem addTerm_final {pow z : ℕ} {terms : List (ℕ × String)} (hz : 0 < z)
    (h : InvTerms 6 terms) :
    List.Pairwise (fun a b => rank b.2 < rank a.2) (addTerm pow z "" "K" 0 terms) ∧
    (∀ t ∈ addTerm pow z "" "K" 0 terms, 0 < t.1) := by
  obtain ⟨hpw, hpos, hrk⟩ := h
  have hr7 : rank "" = 7 := by decide
  cases terms with
  | nil =>
      refine ⟨by simp [addTerm], ?_⟩
      simpa [addTerm] using hz
  | cons t rest =>
      have hpwrest := (List.pairwise_cons.mp hpw).2
      simp only [addTerm]
      split
      · refine ⟨List.pairwise_cons.mpr ⟨fun b hb => ?_, hpwrest⟩, ?_⟩
        · have hb' := hrk b (List.mem_cons_of_mem _ hb)
          simp only [hr7]
          omega
        · intro x hx
          rcases List.mem_cons.mp hx with hx | hx
          · rw [hx]
            exact Nat.lt_of_lt_of_le hz (Nat.le_add_left z _)
          · exact hpos x (List.mem_cons_of_mem _ hx)
      · refine ⟨List.pairwise_cons.mpr ⟨fun b hb => ?_, hpw⟩, ?_⟩
        · have hb' := hrk b hb
          simp only [hr7]
          omega
        · intro x hx
          rcases List.mem_cons.mp hx with hx | hx
          · rw [hx]; exact hz
          · exact hpos x hx

theorem fullTerms_spec (pow : ℕ) (mult : List ℕ) (hlen : mult.length ≤ 6) (v : ℕ) :
    List.Pairwise (fun a b => rank b.2 < rank a.2) (fullTerms v pow mult) ∧
    (∀ t ∈ fullTerms v pow mult, 0 < t.1 ∨ fullTerms v pow mult = [(0, "")]) := by
  have hinv := unparseLoop_invariant pow mult 0 v []
    (by simpa using hlen) ⟨List.Pairwise.nil, by simp, by simp⟩
  unfold fullTerms
  rcases hq : (unparseLoop pow mult 0 v []).1 with _ | ⟨t, rest⟩
  · -- no term produced by the loop: z is still v, single unit-less term
    obtain ⟨-, hz⟩ := hinv.2 hq
    rw [hz, if_pos (Or.inl rfl)]
    refine ⟨by simp [addTerm], ?_⟩
    intro x hx
    simp only [addTerm, List.mem_singleton] at hx
    rcases Nat.eq_zero_or_pos v with hv | hv
    · right
      simp [addTerm, hv]
    · left
      rw [hx]
      exact hv
  · rw [hq] at hinv
    by_cases hz2 : 0 < (unparseLoop pow mult 0 v []).2
    · rw [if_pos (Or.inr hz2)]
      have hfin := @addTerm_final pow ((unparseLoop pow mult 0 v []).2) (t :: rest) hz2 hinv.1
      exact ⟨hfin.1, fun x hx => Or.inl (hfin.2 x hx)⟩
    · rw [if_neg (by push_neg; exact ⟨by simp, by omega⟩)]
      exact ⟨hinv.1.1, fun x hx => Or.inl (hinv.1.2.1 x hx)⟩

/-! ### Claim theorems -/

/-- C1: the round-trip law `parse(unparse(q, b), b) == q` FAILS on the code.
The quantity `2^60` is reachable (`parse "1024p"` produces it in the binary
base), `unparse` renders it as `"1E"`, but the regexp unit class `[bkmgtp]`
omits `e`/`E`, so re-parsing `"1E"` returns an invalid-size error instead of
`2^60` — contradicting the package's own documentation of `unparse` and its
documented grammar.  (Decimal base: same failure at `10^18`.) -/
theorem c1_roundtrip_fails_at_exa :
    parse "1024p" units2 = (2 ^ 60, none) ∧
    unparse (2 ^ 60) 1024 mult2 = "1E" ∧
    parse (unparse (2 ^ 60) 1024 mult2) units2 = (0, some PErr.invalidSize) ∧
    unparse (10 ^ 18) 1000 mult10 = "1E" ∧
    parse (unparse (10 ^ 18) 1000 mult10) units10 = (0, some PErr.invalidSize) := by
  decide

/-- C2: a term with unit letter `e`/`E` is NOT accepted by the parser, in
either base, although both unit tables carry an `"e"` entry with the rank-6
multiplier: the regexp class `[bkmgtp]` omits `e`, so `"1e"` falls through
to the residual-integer branch and fails there.  The claim (and the
package's documented grammar) say `parse("1e")` should succeed with
`2^60` / `10^18`. -/
theorem c2_unit_e_rejected :
    units2 'e' = some (2 ^ 60) ∧
    units10 'e' = some (10 ^ 18) ∧
    isUnitCh 'e' = false ∧
    isUnitCh 'E' = false ∧
    parse "1e" units2 = (0, some PErr.invalidSize) ∧
    parse "1e" units10 = (0, some PErr.invalidSize) ∧
    parse "1E" units2 = (0, some PErr.invalidSize) := by
  decide

/-- C3: the non-negativity invariant FAILS on the code: the residual branch
uses `strconv.Atoi`, which accepts a leading sign, so `parse "-5"` succeeds
with the negative total `-5` and `parse "2k-3"` succeeds with `2045 = 2048-3`
(both bases), although the documented grammar (`digits = [0-9]+`) admits no
sign and the claim requires such inputs to be rejected. -/
theorem c3_signed_residual_accepted :
    parse "-5" units2 = (-5, none) ∧
    parse "-5" units10 = (-5, none) ∧
    parse "2k-3" units2 = (2045, none) ∧
    parse "2k-3" units10 = (1997, none) := by
  decide

/-- C4: per-term rounding toward −∞ before summation, in the binary base:
the term `1.7M` alone contributes `⌊float64(1.7)·2^20⌋ = 1782579`, the term
`0.3K` alone contributes `⌊float64(0.3)·1024⌋ = 307`, the whole input
`"1.7M0.3K"` parses to their sum `1782886`, and `"0.25p"` parses to exactly
one quarter of the `p` multiplier `2^50`. -/
theorem c4_per_term_rounding :
    termValue ['1'] ['7'] mi = 1782579 ∧
    termValue ['0'] ['3'] ki = 307 ∧
    parse "1.7M0.3K" units2 = (1782886, none) ∧
    parse "0.25p" units2 = (281474976710656, none) ∧
    281474976710656 * 4 = pi := by
  decide

/-- C5: every input in the rejection set makes `parse` return an error in
both bases, and `Set` on a flag cell holding any prior value returns that
error as well. -/
theorem c5_rejection_set :
    ((parse "" units2).2 ≠ none ∧ (parse "" units10).2 ≠ none ∧
      (parse "  " units2).2 ≠ none ∧ (parse "  " units10).2 ≠ none ∧
      (parse "k" units2).2 ≠ none ∧ (parse "k" units10).2 ≠ none ∧
      (parse ".1" units2).2 ≠ none ∧ (parse ".1" units10).2 ≠ none ∧
      (parse "1." units2).2 ≠ none ∧ (parse "1." units10).2 ≠ none ∧
      (parse "2.1" units2).2 ≠ none ∧ (parse "2.1" units10).2 ≠ none ∧
      (parse "17kk" units2).2 ≠ none ∧ (parse "17kk" units10).2 ≠ none ∧
      (parse "-16.3mbb" units2).2 ≠ none ∧ (parse "-16.3mbb" units10).2 ≠ none ∧
      (parse "1b2kqq" units2).2 ≠ none ∧ (parse "1b2kqq" units10).2 ≠ none ∧
      (parse "6.7q" units2).2 ≠ none ∧ (parse "6.7q" units10).2 ≠ none) ∧
    ∀ v : ℤ,
      (set2 v "").2 ≠ none ∧ (set10 v "").2 ≠ none ∧
      (set2 v "  ").2 ≠ none ∧ (set10 v "  ").2 ≠ none ∧
      (set2 v "k").2 ≠ none ∧ (set10 v "k").2 ≠ none ∧
      (set2 v ".1").2 ≠ none ∧ (set10 v ".1").2 ≠ none ∧
      (set2 v "1.").2 ≠ none ∧ (set10 v "1.").2 ≠ none ∧
      (set2 v "2.1").2 ≠ none ∧ (set10 v "2.1").2 ≠ none ∧
      (set2 v "17kk").2 ≠ none ∧ (set10 v "17kk").2 ≠ none ∧
      (set2 v "-16.3mbb").2 ≠ none ∧ (set10 v "-16.3mbb").2 ≠ none ∧
      (set2 v "1b2kqq").2 ≠ none ∧ (set10 v "1b2kqq").2 ≠ none ∧
      (set2 v "6.7q").2 ≠ none ∧ (set10 v "6.7q").2 ≠ none := by
  refine ⟨by decide, fun v => ?_⟩
  simp only [set2_snd, set10_snd]
  decide

/-- C6 counterexample: the quantity `1*P + 1024*T` (which equals `2·2^50`)
does NOT format as `"1025T"`: the code renders it as the single term
`"2P"`. -/
theorem c6_counterexample :
    unparse (1 * pi + 1024 * ti) 1024 mult2 = "2P" ∧ "2P" ≠ "1025T" := by
  decide

/-- C6 (amended): under the carry-combination rule, the quantity equal to
exactly `1*P + 1*T` formats as the single term `"1025T"`, not as two
space-separated terms. -/
theorem c6_carry_combination :
    unparse (1 * pi + 1 * ti) 1024 mult2 = "1025T" ∧
    fullTerms (1 * pi + 1 * ti) 1024 mult2 = [(1025, "T")] := by
  decide

/-- C7: the same text against different tables: `"2.3K"` parses to `2300`
in the decimal base and to `2355` in the binary base. -/
theorem c7_cross_base :
    parse "2.3K" units10 = (2300, none) ∧ parse "2.3K" units2 = (2355, none) := by
  decide

/-- C8: for every cell value and input, `Set` either succeeds and stores
exactly the quantity `parse` returns, or returns the parse error and leaves
the stored value unchanged (both bases). -/
theorem c8_set_stores_or_preserves (v : ℤ) (s : String) :
    ((parse s units2).2 = none ∧ set2 v s = ((parse s units2).1, none) ∨
      (parse s units2).2 ≠ none ∧ set2 v s = (v, (parse s units2).2)) ∧
    ((parse s units10).2 = none ∧ set10 v s = ((parse s units10).1, none) ∨
      (parse s units10).2 ≠ none ∧ set10 v s = (v, (parse s units10).2)) := by
  constructor
  · rcases h : parse s units2 with ⟨z, e⟩
    cases e with
    | none => exact Or.inl (by simp [set2, h])
    | some e => exact Or.inr (by simp [set2, h])
  · rcases h : parse s units10 with ⟨z, e⟩
    cases e with
    | none => exact Or.inl (by simp [set10, h])
    | some e => exact Or.inr (by simp [set10, h])

/-- C9 counterexample: parsing `"1k2b"` in the binary base yields the
partial total `1024` (one k-term matched before the bad unit `b`), not the
`2048` the claim's example states. -/
theorem c9_counterexample :
    parse "1k2b" units2 = (1024, some PErr.invalidUnit) ∧ (1024 : ℤ) ≠ 2048 := by
  decide

/-- C9 (amended): whenever the loop's next matched term carries a unit
letter absent from the active table, `parse`'s loop stops with the
invalid-unit error and returns the partial total accumulated so far; e.g.
`"1k2b"` yields partial total `1024` (binary) resp. `1000` (decimal)
together with the invalid-unit error. -/
theorem c9_partial_total_on_invalid_unit :
    (∀ (unit : Char → Option ℕ) (fuel : ℕ) (s : List Char) (size : ℤ) (ok : Bool)
        (d1 d2 : List Char) (u : Char) (len : ℕ),
        matchSize (trimSpace s) = some (d1, d2, u, len) →
        unit (toLowerAscii u) = none →
        parseLoop unit (fuel + 1) s size ok = (size, some PErr.invalidUnit)) ∧
    parse "1k2b" units2 = (1024, some PErr.invalidUnit) ∧
    parse "1k2b" units10 = (1000, some PErr.invalidUnit) := by
  refine ⟨?_, by decide, by decide⟩
  intro unit fuel s size ok d1 d2 u len hm hu
  simp only [parseLoop, hm, hu]

/-- C9 witness: the general invalid-unit statement instantiated at the
suffix `"2b"` of `"1k2b"` with the binary table and partial total 1024. -/
theorem c9_partial_total_witness :
    parseLoop units2 (2 + 1) ['2', 'b'] 1024 true = (1024, some PErr.invalidUnit) :=
  c9_partial_total_on_invalid_unit.1 units2 2 ['2', 'b'] 1024 true
    ['2'] [] 'b' 2 (by decide) (by decide)

/-- C10: for every non-negative quantity and either base, the formatter's
term sequence is canonical: in output order the labels strictly descend in
unit magnitude (strictly increasing `rank`), hence no label repeats; every
coefficient is positive unless the quantity is zero, which renders as the
single term `(0, "")` i.e. `"0"`; and the rendered string joins the terms
with single spaces. -/
theorem c10_canonical_output (v : ℕ) :
    ((fullTerms v 1024 mult2).reverse.Pairwise (fun a b => rank a.2 < rank b.2) ∧
      ((fullTerms v 1024 mult2).reverse.map Prod.snd).Nodup ∧
      (∀ t ∈ fullTerms v 1024 mult2, 0 < t.1 ∨ fullTerms v 1024 mult2 = [(0, "")]) ∧
      fullTerms 0 1024 mult2 = [(0, "")] ∧
      unparse v 1024 mult2 =
        String.intercalate " " (((fullTerms v 1024 mult2).reverse).map renderTerm)) ∧
    ((fullTerms v 1000 mult10).reverse.Pairwise (fun a b => rank a.2 < rank b.2) ∧
      ((fullTerms v 1000 mult10).reverse.map Prod.snd).Nodup ∧
      (∀ t ∈ fullTerms v 1000 mult10, 0 < t.1 ∨ fullTerms v 1000 mult10 = [(0, "")]) ∧
      fullTerms 0 1000 mult10 = [(0, "")] ∧
      unparse v 1000 mult10 =
        String.intercalate " " (((fullTerms v 1000 mult10).reverse).map renderTerm)) := by
  have h2 := fullTerms_spec 1024 mult2 (by decide) v
  have h10 := fullTerms_spec 1000 mult10 (by decide) v
  have hrev2 : (fullTerms v 1024 mult2).reverse.Pairwise
      (fun a b => rank a.2 < rank b.2) := List.pairwise_reverse.mpr h2.1
  have hrev10 : (fullTerms v 1000 mult10).reverse.Pairwise
      (fun a b => rank a.2 < rank b.2) := List.pairwise_reverse.mpr h10.1
  refine ⟨⟨hrev2, ?_, h2.2, by decide, rfl⟩, hrev10, ?_, h10.2, by decide, rfl⟩
  · exact List.pairwise_map.mpr (hrev2.imp fun h he => by rw [he] at h; exact lt_irrefl _ h)
  · exact List.pairwise_map.mpr (hrev10.imp fun h he => by rw [he] at h; exact lt_irrefl _ h)

/-- C10 witness: the positivity clause applied to the single term of
`fullTerms (2^20 + 2^10)` in the binary base (`1M + 1K` carry-combines to
the term `(1025, "K")`). -/
theorem c10_canonical_output_witness :
    0 < ((1025 : ℕ), "K").1 ∨ fullTerms (2 ^ 20 + 2 ^ 10) 1024 mult2 = [(0, "")] :=
  (c10_canonical_output (2 ^ 20 + 2 ^ 10)).1.2.2.1 (1025, "K") (by decide)

end Sizeflag
